import Mathlib

/-!
Verification of the discovery-and-curation core of the msv2 API.

Shallow embedding of the Python source:
* `api/core/db_codecs.py`        — vector codec and vector math
* `api/repositories/library.py`  — playlist centroid and filtered vector search (SQL semantics)
* `api/agents/gem_hunter/tools/search_tool.py` — strict in-memory filtering
* `api/agents/gem_hunter/nodes/supervisor.py`  — supervisor loop/iteration guards
* `api/agents/gem_hunter/nodes/tool_nodes.py`  — graph node functions
* `api/agents/gem_hunter/graph.py`             — conditional routing
* `api/agents/gem_hunter/core/vibe_matching.py` — vibe scoring
* `api/handlers/library.py` and `api/handlers/discovery.py` — artist-diversity filters
* `api/handlers/agent.py`   — resume actions

Python floats are modelled as real numbers where square roots occur
(norms, cosine similarity) and as rationals elsewhere; Python strings are
modelled as lists of characters; nullable values are modelled as `Option`.
-/

namespace MSV2

/-! ### Vector math from `api/core/db_codecs.py` (over ℝ) -/

/-- Sum of squares of the entries of a vector (the quantity under the
square root in the Python `math.sqrt(sum(x * x for x in v))`). -/
def sumSq (v : List ℝ) : ℝ := (v.map fun x => x * x).sum

/-- The Python `sum(x * y for x, y in zip(a, b))`. -/
def dot (a b : List ℝ) : ℝ := (List.zipWith (· * ·) a b).sum

/-- Euclidean norm computed by the source: `math.sqrt(sum(x * x for x in v))`. -/
noncomputable def vnorm (v : List ℝ) : ℝ := Real.sqrt (sumSq v)

open Classical in
/-- `normalize_vector` from `db_codecs.py`: empty list for the empty vector,
the vector itself when its norm is zero, otherwise the unit vector. -/
noncomputable def normalize_vector (v : List ℝ) : List ℝ :=
  if v.isEmpty then []
  else if vnorm v = 0 then v
  else v.map fun x => x / vnorm v

open Classical in
/-- `cosine_similarity` from `db_codecs.py`: `0.0` on empty input, mismatched
lengths, or a zero-norm side; otherwise the normalized dot product. -/
noncomputable def cosine_similarity (a b : List ℝ) : ℝ :=
  if a.isEmpty ∨ b.isEmpty ∨ a.length ≠ b.length then 0
  else if vnorm a = 0 ∨ vnorm b = 0 then 0
  else dot a b / (vnorm a * vnorm b)

/-! ### Playlist centroid from `api/repositories/library.py` -/

/-- Componentwise sum of a list of vectors, as computed by pgvector `AVG`
before division (vectors of equal dimension; `AVG` of no rows is NULL and is
handled by `avg_vector` below). -/
def vecSum : List (List ℝ) → List ℝ
  | [] => []
  | [v] => v
  | v :: vs => List.zipWith (· + ·) v (vecSum vs)

/-- pgvector `AVG(embedding_512_vector)` over the rows that survived the
`embedding_512_vector IS NOT NULL` predicate: NULL (none) when there are no
rows, otherwise the componentwise mean. -/
noncomputable def avg_vector (vs : List (List ℝ)) : Option (List ℝ) :=
  if vs.isEmpty then none
  else some ((vecSum vs).map fun x => x / (vs.length : ℝ))

/-- `LibraryRepository.get_playlist_centroid`: a playlist is modelled by the
list of its member tracks' nullable embeddings.  The SQL keeps the non-null
embeddings, `AVG` produces the mean (NULL when there are none), the fetched
value is already a list so `decode_vector` returns it unchanged, the Python
`if not centroid_vector` branch returns `None` for NULL or empty vectors, and
the result is passed through `normalize_vector`. -/
noncomputable def get_playlist_centroid (members : List (Option (List ℝ))) :
    Option (List ℝ) :=
  match avg_vector (members.filterMap id) with
  | none => none
  | some c => if c.isEmpty then none else some (normalize_vector c)

/-! ### Supervisor node from `api/agents/gem_hunter/nodes/supervisor.py` -/

/-- The closed action set of `SupervisorDecision.next_action`. -/
inductive SupAction
  | analyze_playlist
  | search_tracks
  | evaluate_results
  | check_knowledge
  | present_results
  | END
  deriving DecidableEq, Repr

/-- The two supervisor state fields the safety guards read and write. -/
structure SupState where
  iteration_count : ℕ
  action_history : List SupAction
  deriving DecidableEq, Repr

/-- Python `history[-3:]`. -/
def lastThree (h : List SupAction) : List SupAction := h.drop (h.length - 3)

/-- Python `len(set(l)) == 1`: the list is non-empty and all its entries
are equal. -/
def allSame : List SupAction → Bool
  | [] => false
  | a :: rest => rest.all fun b => b == a

/-- `SupervisorNode.execute`.  The LLM decision is modelled by an arbitrary
total `chooser`; the Python function returns a dict of state updates, which we
model by returning the chosen action together with the updated state.  The
max-iterations branch leaves `action_history` unchanged, the loop-detection
branch appends `present_results` without trimming, and the normal branch
appends the chosen action and keeps only the last three entries. -/
def supervisor_execute (chooser : SupState → SupAction) (s : SupState) :
    SupAction × SupState :=
  if 10 ≤ s.iteration_count then
    (.present_results, ⟨s.iteration_count + 1, s.action_history⟩)
  else if 3 ≤ s.action_history.length ∧ allSame (lastThree s.action_history) then
    (.present_results,
      ⟨s.iteration_count + 1, s.action_history ++ [.present_results]⟩)
  else
    (chooser s,
      ⟨s.iteration_count + 1, lastThree (s.action_history ++ [chooser s])⟩)

/-- State after `k` supervisor cycles, starting from a fresh session
(`iteration_count = 0`, empty `action_history`). -/
def supervisor_run (chooser : SupState → SupAction) : ℕ → SupState
  | 0 => ⟨0, []⟩
  | k + 1 => (supervisor_execute chooser (supervisor_run chooser k)).2

/-- The action emitted on cycle `k` (0-based): what the supervisor returns as
`next_action` on its `k+1`-st execution. -/
def supervisor_emit (chooser : SupState → SupAction) (k : ℕ) : SupAction :=
  (supervisor_execute chooser (supervisor_run chooser k)).1

/-! ### Tracks, constraints and strict filtering
(`api/agents/gem_hunter/tools/search_tool.py`) -/

/-- The track fields read by the strict filter and the knowledge nodes. -/
structure Trk where
  artist : String
  bpm : Option ℚ
  energy : Option ℚ
  deriving DecidableEq, Repr

/-- The constraints dict built by `ToolNodes.search_tracks`: each key is
optional, and `filter_tracks_strict` reads it with defaults
(`min_bpm` 0, `max_bpm` 999, `min_energy` 0, `max_energy` 1.0). -/
structure Constraints where
  min_bpm : Option ℚ
  max_bpm : Option ℚ
  min_energy : Option ℚ
  max_energy : Option ℚ
  deriving DecidableEq, Repr

/-- The BPM test of `filter_tracks_strict`: the range is only checked when
`t.bpm is not None`; a null BPM falls through to `filtered.append(t)`. -/
def passes_bpm (c : Constraints) (t : Trk) : Bool :=
  match t.bpm with
  | none => true
  | some b => decide (c.min_bpm.getD 0 ≤ b) && decide (b ≤ c.max_bpm.getD 999)

/-- The energy test of `filter_tracks_strict`, analogous to `passes_bpm`. -/
def passes_energy (c : Constraints) (t : Trk) : Bool :=
  match t.energy with
  | none => true
  | some e => decide (c.min_energy.getD 0 ≤ e) && decide (e ≤ c.max_energy.getD 1)

/-- `filter_tracks_strict` from `search_tool.py`: keep a track unless a
non-null feature violates a bound. -/
def filter_tracks_strict (tracks : List Trk) (c : Constraints) : List Trk :=
  tracks.filter fun t => passes_bpm c t && passes_energy c t

/-! ### SQL-level filtered search
(`LibraryRepository.search_hidden_gems_with_filters`) -/

/-- One row of the music table, with the columns the query reads. -/
structure Row where
  id : ℤ
  artist : String
  embedding : Option (List ℚ)
  bpm : Option ℚ
  energy : Option ℚ
  deriving DecidableEq, Repr

/-- The query parameters (`$1`–`$8`). -/
structure SearchParams where
  centroid : List ℚ
  exclude_ids : List ℤ
  exclude_artists : List String
  min_bpm : ℚ
  max_bpm : ℚ
  min_energy : ℚ
  max_energy : ℚ
  lim : ℕ
  deriving Repr

/-- The WHERE clause of `search_hidden_gems_with_filters` under SQL
three-valued logic: a NULL `bpm` or `energy` makes the range comparison
NULL, so the row is filtered out; the `cardinality(...) = 0 OR ... != ALL`
guards make empty exclusion arrays exclude nothing. -/
def sql_row_matches (p : SearchParams) (r : Row) : Bool :=
  r.embedding.isSome
    && (match r.bpm with
        | none => false
        | some b => decide (p.min_bpm ≤ b) && decide (b ≤ p.max_bpm))
    && (match r.energy with
        | none => false
        | some e => decide (p.min_energy ≤ e) && decide (e ≤ p.max_energy))
    && (p.exclude_ids.isEmpty || decide (r.id ∉ p.exclude_ids))
    && (p.exclude_artists.isEmpty || decide (r.artist ∉ p.exclude_artists))

/-- `search_hidden_gems_with_filters`: rows passing the WHERE clause, ordered
ascending by the pgvector cosine-distance operator (modelled by an arbitrary
distance `opDist` against the query centroid), truncated by LIMIT. -/
def search_hidden_gems_with_filters (table : List Row)
    (opDist : List ℚ → List ℚ → ℚ) (p : SearchParams) : List Row :=
  ((List.insertionSort
      (fun r1 r2 => opDist p.centroid (r1.embedding.getD []) ≤
                    opDist p.centroid (r2.embedding.getD []))
      (table.filter (sql_row_matches p))).take p.lim)

/-- How `search_similar_tracks` in `search_tool.py` passes the constraints
dict to the repository: `constraints.get("min_bpm", 0)` and friends. -/
def paramsOfConstraints (c : Constraints) (centroid : List ℚ)
    (exclude_ids : List ℤ) (exclude_artists : List String) (lim : ℕ) :
    SearchParams :=
  { centroid := centroid
    exclude_ids := exclude_ids
    exclude_artists := exclude_artists
    min_bpm := c.min_bpm.getD 0
    max_bpm := c.max_bpm.getD 999
    min_energy := c.min_energy.getD 0
    max_energy := c.max_energy.getD 1
    lim := lim }

/-- Projection of a database row onto the fields the in-memory nodes read. -/
def Row.toTrk (r : Row) : Trk := ⟨r.artist, r.bpm, r.energy⟩

/-! ### Graph nodes (`api/agents/gem_hunter/nodes/tool_nodes.py`) and
routing (`api/agents/gem_hunter/graph.py`) -/

/-- The agent-state fields read or written by the modelled nodes. -/
structure GState where
  candidate_tracks : List Trk
  enriched_tracks : List Trk
  final_tracks : List Trk
  constraints : Constraints
  excluded_artists : List String
  known_artists : List String
  vibe_choice : String
  knowledge_search_attempted : Bool
  search_done : Bool
  enriched : Bool
  filtered : Bool
  knowledge_checked : Bool
  results_presented : Bool
  deriving DecidableEq, Repr

/-- The constraints `ToolNodes.search_tracks` derives from the vibe choice. -/
def vibeConstraints (vibe : String) : Constraints :=
  if vibe = "chill" then ⟨none, some 110, none, some (3 / 5)⟩
  else if vibe = "energy" then ⟨some 120, none, some (7 / 10), none⟩
  else ⟨none, none, none, none⟩

/-- `ToolNodes.search_tracks`: the database search is modelled by an
arbitrary `retrieve` function of the constraints and the current exclusion
list.  The node stores the candidates, marks the search done and resets the
downstream flags — including `knowledge_checked`. -/
def search_tracks (retrieve : Constraints → List String → List Trk)
    (s : GState) : GState :=
  let c := vibeConstraints s.vibe_choice
  { s with
    candidate_tracks := retrieve c s.excluded_artists
    constraints := c
    search_done := true
    enriched := false
    filtered := false
    knowledge_checked := false }

/-- `ToolNodes.enrich_tracks` (currently a pass-through). -/
def enrich_tracks (s : GState) : GState :=
  { s with enriched_tracks := s.candidate_tracks, enriched := true }

/-- `ToolNodes.filter_tracks`: strict filtering then `filtered[:10]`. -/
def filter_tracks (s : GState) : GState :=
  { s with
    final_tracks := (filter_tracks_strict s.enriched_tracks s.constraints).take 10
    filtered := true }

/-- `ToolNodes.check_knowledge`: only builds the UI prompt and sets the
`knowledge_checked` flag. -/
def check_knowledge (s : GState) : GState :=
  { s with knowledge_checked := true }

/-- `ToolNodes.process_knowledge`: when every shown track's artist is known
and no re-search has been attempted, fold the known artists into
`excluded_artists`, clear `search_done` to trigger a re-search and mark the
retry as used; otherwise return no updates. -/
def process_knowledge (s : GState) : GState :=
  let unknown := s.final_tracks.filter fun t => !(s.known_artists.contains t.artist)
  if unknown.length = 0 then
    if s.knowledge_search_attempted = false then
      { s with
        knowledge_search_attempted := true
        excluded_artists := s.excluded_artists ++ s.known_artists
        search_done := false
        enriched := false
        filtered := false
        knowledge_checked := true }
    else s
  else s

/-- `ToolNodes.present_results`: terminal node; only the flag matters here. -/
def present_results (s : GState) : GState :=
  { s with results_presented := true }

/-- Targets of the conditional edges in `graph.py`. -/
inductive Route
  | to_search_tracks
  | to_present_results
  | to_check_knowledge
  | to_process_knowledge
  deriving DecidableEq, Repr

/-- `route_after_process` from `graph.py`: loop back to the search node
whenever `search_done` was reset. -/
def route_after_process (s : GState) : Route :=
  if s.search_done = false then .to_search_tracks else .to_present_results

/-- `route_after_filter` from `graph.py`. -/
def route_after_filter (s : GState) : Route :=
  if s.knowledge_checked && s.knowledge_search_attempted then
    .to_process_knowledge
  else .to_check_knowledge

/-- The `submit_knowledge` action of `resume_agent_handler` in
`api/handlers/agent.py`: the payload replaces `known_artists` wholesale. -/
def submit_knowledge (payload : List String) (s : GState) : GState :=
  { s with knowledge_checked := true, known_artists := payload }

/-! ### Vibe matching (`api/agents/gem_hunter/core/vibe_matching.py`) -/

/-- The track dict fields read by `filter_by_vibe`. -/
structure VTrack where
  id : ℕ
  energy : Option ℚ
  acousticness : Option ℚ
  bpm : Option ℚ
  valence : Option ℚ
  danceability : Option ℚ
  deriving DecidableEq, Repr

/-- Python truthiness of `t.get(key)` for a nullable float: false for a
missing key and for `0.0`. -/
def truthy (o : Option ℚ) : Bool := decide (o.getD 0 ≠ 0)

/-- The "Chill" score: `+2` if energy is truthy and `< 0.5`, `+2` if
acousticness is truthy and `> 0.5`, `+1` if bpm is truthy and `< 110`,
`+1` if valence is truthy and `< 0.5`. -/
def chillScore (t : VTrack) : ℕ :=
  (if truthy t.energy && decide (t.energy.getD 0 < 1 / 2) then 2 else 0)
    + (if truthy t.acousticness && decide ((1 : ℚ) / 2 < t.acousticness.getD 0) then 2 else 0)
    + (if truthy t.bpm && decide (t.bpm.getD 0 < 110) then 1 else 0)
    + (if truthy t.valence && decide (t.valence.getD 0 < 1 / 2) then 1 else 0)

/-- The "Energy" score: `+2` if energy is truthy and `> 0.7`, `+2` if
danceability is truthy and `> 0.6`, `+1` if bpm is truthy and `> 120`,
`+1` if valence is truthy and `> 0.6`. -/
def energyScore (t : VTrack) : ℕ :=
  (if truthy t.energy && decide ((7 : ℚ) / 10 < t.energy.getD 0) then 2 else 0)
    + (if truthy t.danceability && decide ((3 : ℚ) / 5 < t.danceability.getD 0) then 2 else 0)
    + (if truthy t.bpm && decide ((120 : ℚ) < t.bpm.getD 0) then 1 else 0)
    + (if truthy t.valence && decide ((3 : ℚ) / 5 < t.valence.getD 0) then 1 else 0)

/-- `filter_by_vibe`: for "Chill" and "Energy", a stable descending sort by
score followed by `[:5]`.  Python `list.sort(key=..., reverse=True)` is a
stable descending sort by key; a stable sort is extensionally unique, so it
is modelled by the structural stable `List.insertionSort` under the relation
"my score is at least yours".  Every other vibe — in particular
"Surprise" — returns the input list unchanged. -/
def filter_by_vibe (tracks : List VTrack) (vibe_choice : String) : List VTrack :=
  if vibe_choice = "Chill" then
    (List.insertionSort (fun a b => chillScore b ≤ chillScore a) tracks).take 5
  else if vibe_choice = "Energy" then
    (List.insertionSort (fun a b => energyScore b ≤ energyScore a) tracks).take 5
  else tracks

/-- The ten synthetic tracks of the vibe-scoring scenario: energies
`0.1, 0.2, ..., 1.0`, all other features absent. -/
def vibeScenarioTracks : List VTrack :=
  (List.range 10).map fun i =>
    ⟨i + 1, some (((i : ℚ) + 1) / 10), none, none, none, none⟩

/-! ### Artist-diversity filters (`api/handlers/library.py` and
`api/handlers/discovery.py`) -/

/-- The candidate fields the similar-tracks diversity filter reads. -/
structure STrack where
  id : ℕ
  artist : String
  deriving DecidableEq, Repr

/-- The first pass of `get_similar_tracks_handler`: walk the ranked
candidates, accepting a track whose artist is unseen and diverting the rest
to the fallback list, breaking as soon as `wanted` tracks are accepted. -/
def simLoop (wanted : ℕ) :
    List STrack → List String → List STrack → List STrack →
    List STrack × List STrack
  | [], _, filt, fall => (filt, fall)
  | t :: rest, seen, filt, fall =>
    if t.artist ∈ seen then
      if filt.length = wanted then (filt, fall ++ [t])
      else simLoop wanted rest seen filt (fall ++ [t])
    else
      if (filt ++ [t]).length = wanted then (filt ++ [t], fall)
      else simLoop wanted rest (seen ++ [t.artist]) (filt ++ [t]) fall

/-- The diversity filter of `get_similar_tracks_handler`: first pass with the
seed artists pre-seen, then fill the remainder from the fallback list in rank
order (`fallback_tracks[:wanted - len(filtered)]`).  In the source `wanted`
is `settings.SIMILAR_TRACKS_RETURNED` (10). -/
def similar_tracks_diversity (candidates : List STrack) (seed : List String)
    (wanted : ℕ) : List STrack :=
  let r := simLoop wanted candidates seed [] []
  if r.1.length < wanted then r.1 ++ r.2.take (wanted - r.1.length) else r.1

/-- The candidate fields `_filter_diverse_results` reads. -/
structure DTrack where
  id : ℕ
  artist_folder : String
  deriving DecidableEq, Repr

/-- The loop of `_filter_diverse_results` in `api/handlers/discovery.py`:
accept the first track of each `artist_folder`, breaking once `limit`
results are collected.  There is no fallback pass. -/
def dGo (lim : ℕ) : List DTrack → List String → List DTrack → List DTrack
  | [], _, acc => acc
  | t :: rest, seen, acc =>
    if t.artist_folder ∈ seen then
      if lim ≤ acc.length then acc else dGo lim rest seen acc
    else
      if lim ≤ (acc ++ [t]).length then acc ++ [t]
      else dGo lim rest (seen ++ [t.artist_folder]) (acc ++ [t])

/-- `_filter_diverse_results(candidates, limit)`. -/
def filter_diverse_results (candidates : List DTrack) (lim : ℕ) : List DTrack :=
  dGo lim candidates [] []

/-- The number of distinct artists among the candidates that are not in the
seen set — the quantity the spec calls "distinct eligible artists". -/
def eligDistinct (candidates : List STrack) (seen : List String) : ℕ :=
  ((candidates.map STrack.artist).filter fun a => a ∉ seen).toFinset.card

/-- `eligDistinct` for the discovery-handler track shape. -/
def dEligDistinct (candidates : List DTrack) (seen : List String) : ℕ :=
  ((candidates.map DTrack.artist_folder).filter fun a => a ∉ seen).toFinset.card

/-! ### pgvector text codec (`decode_vector` / `encode_vector` in
`api/core/db_codecs.py`).  Python floats are modelled as rationals with a
terminating decimal expansion (every finite binary float is one), Python
strings as lists of characters. -/

/-- A value on the asyncpg codec boundary: SQL NULL, a text-format value, or
an already-decoded list (the `isinstance(value, list)` branch). -/
inductive PgValue
  | null
  | str (s : List Char)
  | lst (l : List ℚ)
  deriving DecidableEq, Repr

/-- Decimal digits, most significant first, with explicit fuel so that the
recursion is structural (the fuel is an upper bound on the number; it never
runs out when `n ≤ fuel`). -/
def natDigitsAux : ℕ → ℕ → List ℕ
  | 0, n => [n]
  | fuel + 1, n => if n < 10 then [n] else natDigitsAux fuel (n / 10) ++ [n % 10]

/-- Decimal digits of a natural number, most significant first. -/
def natDigits (n : ℕ) : List ℕ := natDigitsAux n n

/-- Numeric value of a digit string (most significant digit first). -/
def ofDigits (l : List ℕ) : ℕ := l.foldl (fun a d => 10 * a + d) 0

/-- The character of a decimal digit. -/
def digitChar (d : ℕ) : Char := Char.ofNat (48 + d)

/-- The digit of a character between '0' and '9', else `none`. -/
def charDigit (c : Char) : Option ℕ :=
  if 48 ≤ c.toNat ∧ c.toNat ≤ 57 then some (c.toNat - 48) else none

/-- The scaled integer mantissa of a rational written with `q.den` decimal
places: `q.num * 10 ^ q.den / q.den` (exact integer division whenever
`q.den ∣ 10 ^ q.den`). -/
def mOf (q : ℚ) : ℤ := q.num * (10 : ℤ) ^ q.den / (q.den : ℤ)

/-- The digits of the mantissa, zero-padded on the left so that at least one
digit lands before the decimal point. -/
def paddedOf (q : ℚ) : List ℕ :=
  List.replicate (q.den + 1 - (natDigits (mOf q).natAbs).length) 0 ++
    natDigits (mOf q).natAbs

/-- Integer-part digits: everything except the last `q.den` digits. -/
def ipOf (q : ℚ) : List ℕ := (paddedOf q).take ((paddedOf q).length - q.den)

/-- Fraction-part digits: the last `q.den` digits. -/
def fpOf (q : ℚ) : List ℕ := (paddedOf q).drop ((paddedOf q).length - q.den)

/-- Model of Python `str` on a finite (decimal-rational) float: optional
sign, integer digits, decimal point, fraction digits.  The fraction is
written with `q.den` decimal places, which is exact whenever
`q.den ∣ 10 ^ q.den` (see `IsDecimal`); Python's shortest-representation and
exponent forms are not modelled, but both sides of the codec agree on this
plain-decimal fragment, which is what the round-trip uses. -/
def renderQ (q : ℚ) : List Char :=
  (if q.num < 0 then ['-'] else []) ++
    (ipOf q).map digitChar ++ '.' :: (fpOf q).map digitChar

/-- A rational with a terminating decimal expansion — exactly the values a
finite binary float can take. -/
def IsDecimal (q : ℚ) : Prop := q.den ∣ 10 ^ q.den

instance (q : ℚ) : Decidable (IsDecimal q) :=
  inferInstanceAs (Decidable (q.den ∣ 10 ^ q.den))

/-- Digit-accumulating loop of the numeric-literal grammar. -/
def parseDigitsAux : List Char → ℕ → Option ℕ
  | [], acc => some acc
  | c :: rest, acc =>
    match charDigit c with
    | some d => parseDigitsAux rest (10 * acc + d)
    | none => none

/-- Parse a (possibly empty) digit string; the empty string reads as 0,
which only arises for the integer or fraction side of a decimal point. -/
def parseNat0 (cs : List Char) : Option ℕ := parseDigitsAux cs 0

/-- Parse an unsigned numeric literal of the decimal fragment: digits with at
most one decimal point. -/
def parseAbsQ (body : List Char) : Option ℚ :=
  if body.isEmpty then none
  else if body.count '.' = 0 then (parseNat0 body).map fun n => (n : ℚ)
  else if body.count '.' = 1 then
    let ip := body.takeWhile fun c => c ≠ '.'
    let fp := (body.dropWhile fun c => c ≠ '.').tail
    (parseNat0 ip).bind fun i =>
      (parseNat0 fp).map fun f => (i : ℚ) + (f : ℚ) / (10 : ℚ) ^ fp.length
  else none

/-- Parse a signed numeric literal. -/
def parseNumQ (cs : List Char) : Option ℚ :=
  if cs.head? = some '-' then (parseAbsQ cs.tail).map fun x => -x
  else parseAbsQ cs

/-- Split a character list at commas. -/
def splitOnComma : List Char → List (List Char)
  | [] => [[]]
  | c :: rest =>
    if c = ',' then [] :: splitOnComma rest
    else
      match splitOnComma rest with
      | [] => [[c]]
      | p :: ps => (c :: p) :: ps

/-- Whitespace removed by Python `str.strip()`. -/
def isSpaceChar (c : Char) : Bool :=
  c == ' ' || c == '\t' || c == '\n' || c == '\r'

/-- Python `value.strip()`. -/
def stripChars (cs : List Char) : List Char :=
  ((cs.dropWhile isSpaceChar).reverse.dropWhile isSpaceChar).reverse

/-- Parse every comma-separated item, failing if any item fails. -/
def parseItems : List (List Char) → Option (List ℚ)
  | [] => some []
  | p :: ps => (parseNumQ p).bind fun q => (parseItems ps).map fun qs => q :: qs

/-- `ast.literal_eval` restricted to the list-of-number literals that
`encode_vector` produces: a bracketed, comma-separated sequence of numeric
literals; `none` models the `ValueError`/`SyntaxError` that `decode_vector`
catches. -/
def literal_eval_vec (cs : List Char) : Option (List ℚ) :=
  match cs with
  | '[' :: rest =>
    if rest.getLast? = some ']' then
      let body := rest.dropLast
      if body.isEmpty then some [] else parseItems (splitOnComma body)
    else none
  | _ => none

/-- `decode_vector` from `db_codecs.py`: `None` for NULL, a list unchanged,
and text stripped then parsed, with the empty string and any parse failure
giving `None`. -/
def decode_vector : PgValue → Option (List ℚ)
  | .null => none
  | .lst l => some l
  | .str s =>
    let s' := stripChars s
    if s'.isEmpty then none
    else
      match literal_eval_vec s' with
      | some l => some l
      | none => none

/-- Python `",".join(...)`. -/
def joinComma : List (List Char) → List Char
  | [] => []
  | [p] => p
  | p :: ps => p ++ ',' :: joinComma ps

/-- `encode_vector` from `db_codecs.py`: `None` for `None`, otherwise the
text form, built exactly as the Python f-string
(open bracket, the comma-join of the rendered entries, close bracket). -/
def encode_vector : Option (List ℚ) → PgValue
  | none => .null
  | some v => .str ('[' :: (joinComma (v.map renderQ) ++ [']']))

/-! ## Theorems -/

/-! ### C2 — supervisor loop detector and iteration cap -/

/-- Every branch of the supervisor increments the iteration counter by
exactly one. -/
theorem supervisor_execute_iteration (chooser : SupState → SupAction)
    (s : SupState) :
    (supervisor_execute chooser s).2.iteration_count = s.iteration_count + 1 := by
  unfold supervisor_execute
  split
  · rfl
  · split <;> rfl

/-- C2, counterexample: with the action-chooser constantly returning
`search_tracks`, none of the first three supervisor cycles of a fresh
session emits `present_results` — the loop detector only fires on the
fourth cycle, so the claimed three-cycle bound fails. -/
theorem supervisor_three_cycle_counterexample :
    supervisor_emit (fun _ => .search_tracks) 0 ≠ .present_results ∧
    supervisor_emit (fun _ => .search_tracks) 1 ≠ .present_results ∧
    supervisor_emit (fun _ => .search_tracks) 2 ≠ .present_results := by
  decide

/-- C2, amended: a constant action-chooser reaches `present_results` within
at most 4 cycles — immediately if it chooses `present_results` itself,
otherwise on the fourth cycle when the loop detector sees three identical
actions; independently, any cycle that starts with `iteration_count ≥ 10` is
forced to `present_results`, and the counter equals the number of completed
cycles, so the cap fires on the eleventh cycle at the latest. -/
theorem supervisor_loop_safety :
    (∀ c : SupAction, supervisor_emit (fun _ => c) 0 = .present_results ∨
      supervisor_emit (fun _ => c) 3 = .present_results) ∧
    (∀ chooser : SupState → SupAction, ∀ k : ℕ,
      10 ≤ (supervisor_run chooser k).iteration_count →
      supervisor_emit chooser k = .present_results) ∧
    (∀ chooser : SupState → SupAction, ∀ k : ℕ,
      (supervisor_run chooser k).iteration_count = k) := by
  refine ⟨?_, ?_, ?_⟩
  · intro c
    cases c <;> decide
  · intro chooser k h
    simp [supervisor_emit, supervisor_execute, h]
  · intro chooser k
    induction k with
    | zero => rfl
    | succ k ih =>
      show (supervisor_execute chooser (supervisor_run chooser k)).2.iteration_count = k + 1
      rw [supervisor_execute_iteration, ih]

/-- C2, witness: on the cycle starting with `iteration_count = 10`, the
supervisor is forced to `present_results`. -/
theorem supervisor_loop_safety_witness :
    supervisor_emit (fun _ => .search_tracks) 10 = .present_results :=
  supervisor_loop_safety.2.1 (fun _ => .search_tracks) 10 (by decide)

/-! ### C8 — totality and range of `cosine_similarity` -/

/-- A sum of squares is non-negative. -/
theorem sumSq_nonneg (v : List ℝ) : 0 ≤ sumSq v := by
  apply List.sum_nonneg
  intro x hx
  obtain ⟨y, -, rfl⟩ := List.mem_map.mp hx
  exact mul_self_nonneg y

/-- `sumSq` as a finite sum over indices. -/
theorem sumSq_eq_sum_range (a : List ℝ) :
    sumSq a = ∑ i ∈ Finset.range a.length, a.getD i 0 ^ 2 := by
  induction a with
  | nil => simp [sumSq]
  | cons x xs ih =>
    have h1 : sumSq (x :: xs) = x * x + sumSq xs := by simp [sumSq]
    rw [h1, List.length_cons, Finset.sum_range_succ']
    simp only [List.getD_cons_succ, List.getD_cons_zero]
    rw [← ih]
    ring

/-- `dot` as a finite sum over indices, for equal-length lists. -/
theorem dot_eq_sum_range (a : List ℝ) : ∀ b : List ℝ, a.length = b.length →
    dot a b = ∑ i ∈ Finset.range a.length, a.getD i 0 * b.getD i 0 := by
  induction a with
  | nil =>
    intro b _
    simp [dot]
  | cons x xs ih =>
    intro b h
    cases b with
    | nil => simp at h
    | cons y ys =>
      have h' : xs.length = ys.length := by simpa using h
      have h1 : dot (x :: xs) (y :: ys) = x * y + dot xs ys := by simp [dot]
      rw [h1, List.length_cons, Finset.sum_range_succ']
      simp only [List.getD_cons_succ, List.getD_cons_zero]
      rw [← ih ys h']
      ring

/-- Cauchy–Schwarz for the list dot product. -/
theorem abs_dot_le (a b : List ℝ) (h : a.length = b.length) :
    |dot a b| ≤ vnorm a * vnorm b := by
  have hu := Real.sum_mul_le_sqrt_mul_sqrt (Finset.range a.length)
      (fun i => a.getD i 0) (fun i => b.getD i 0)
  have hl := Real.sum_mul_le_sqrt_mul_sqrt (Finset.range a.length)
      (fun i => -a.getD i 0) (fun i => b.getD i 0)
  simp only [neg_mul, Finset.sum_neg_distrib, neg_sq] at hl
  rw [dot_eq_sum_range a b h, vnorm, vnorm, sumSq_eq_sum_range,
    sumSq_eq_sum_range, show b.length = a.length from h.symm]
  exact abs_le.mpr ⟨by linarith, hu⟩

/-- C8: `cosine_similarity` is total: it returns exactly 0 on empty input,
mismatched lengths, or a zero-norm side, and its value always lies in the
closed interval `[-1, 1]`. -/
theorem cosine_similarity_spec (a b : List ℝ) :
    ((a = [] ∨ b = [] ∨ a.length ≠ b.length) → cosine_similarity a b = 0) ∧
    ((vnorm a = 0 ∨ vnorm b = 0) → cosine_similarity a b = 0) ∧
    (-1 ≤ cosine_similarity a b ∧ cosine_similarity a b ≤ 1) := by
  by_cases h1 : (a.isEmpty ∨ b.isEmpty ∨ a.length ≠ b.length : Prop)
  · have hcs : cosine_similarity a b = 0 := by
      rw [cosine_similarity, if_pos h1]
    exact ⟨fun _ => hcs, fun _ => hcs, by rw [hcs]; norm_num⟩
  · have hfirst : ¬(a = [] ∨ b = [] ∨ a.length ≠ b.length) := by
      intro h3
      apply h1
      rcases h3 with h | h | h
      · exact Or.inl (by simp [h])
      · exact Or.inr (Or.inl (by simp [h]))
      · exact Or.inr (Or.inr h)
    have hlen : a.length = b.length := by
      by_contra hne
      exact h1 (Or.inr (Or.inr hne))
    by_cases h2 : vnorm a = 0 ∨ vnorm b = 0
    · have hcs : cosine_similarity a b = 0 := by
        rw [cosine_similarity, if_neg h1, if_pos h2]
      exact ⟨fun h3 => absurd h3 hfirst, fun _ => hcs, by rw [hcs]; norm_num⟩
    · have hcs : cosine_similarity a b = dot a b / (vnorm a * vnorm b) := by
        rw [cosine_similarity, if_neg h1, if_neg h2]
      push_neg at h2
      have hna : 0 < vnorm a :=
        lt_of_le_of_ne (Real.sqrt_nonneg _) (Ne.symm h2.1)
      have hnb : 0 < vnorm b :=
        lt_of_le_of_ne (Real.sqrt_nonneg _) (Ne.symm h2.2)
      have habs : |cosine_similarity a b| ≤ 1 := by
        rw [hcs, abs_div, abs_of_pos (mul_pos hna hnb),
          div_le_one (mul_pos hna hnb)]
        exact abs_dot_le a b hlen
      obtain ⟨hlo, hhi⟩ := abs_le.mp habs
      exact ⟨fun h3 => absurd h3 hfirst, fun h3 => absurd h3 (by push_neg; exact h2),
        hlo, hhi⟩

/-- C8, witness: the mismatched-length branch at a concrete input. -/
theorem cosine_similarity_spec_witness :
    cosine_similarity [1] [1, 0] = 0 :=
  (cosine_similarity_spec [1] [1, 0]).1 (Or.inr (Or.inr (by norm_num)))

/-! ### C1 — the playlist centroid invariant -/

/-- Scaling every entry divides the sum of squares by the square of the
scalar (also valid for scalar 0 under Lean's `x / 0 = 0` convention). -/
theorem sumSq_map_div (v : List ℝ) (c : ℝ) :
    sumSq (v.map fun x => x / c) = sumSq v / c ^ 2 := by
  induction v with
  | nil => simp [sumSq]
  | cons x xs ih =>
    have h1 : sumSq ((x :: xs).map fun x => x / c) =
        (x / c) * (x / c) + sumSq (xs.map fun x => x / c) := by simp [sumSq]
    have h2 : sumSq (x :: xs) = x * x + sumSq xs := by simp [sumSq]
    rw [h1, h2, ih]
    ring

/-- `normalize_vector` really produces a unit vector whenever the input has
non-zero norm. -/
theorem vnorm_normalize (v : List ℝ) (h : sumSq v ≠ 0) :
    vnorm (normalize_vector v) = 1 := by
  have hv : v.isEmpty = false := by
    cases v with
    | nil => simp [sumSq] at h
    | cons x xs => rfl
  have hn0 : vnorm v ≠ 0 := by
    rw [vnorm, Ne, Real.sqrt_eq_zero']
    intro hle
    exact h (le_antisymm hle (sumSq_nonneg v))
  rw [normalize_vector]
  simp only [hv, Bool.false_eq_true, if_false, if_neg hn0]
  rw [vnorm, sumSq_map_div, vnorm, Real.sq_sqrt (sumSq_nonneg v),
    div_self h, Real.sqrt_one]

/-- On a zero-norm vector, `normalize_vector` is the identity. -/
theorem normalize_vnorm_zero (v : List ℝ) (h : vnorm v = 0) :
    normalize_vector v = v := by
  by_cases hv : v.isEmpty
  · rw [List.isEmpty_iff.mp hv]
    rfl
  · simp only [normalize_vector, Bool.not_eq_true] at hv ⊢
    rw [hv]
    simp [h]

/-- `vecSum` preserves the common dimension of a non-empty family. -/
theorem vecSum_length (d : ℕ) (vs : List (List ℝ)) (hne : vs ≠ [])
    (hall : ∀ v ∈ vs, v.length = d) : (vecSum vs).length = d := by
  induction vs with
  | nil => exact absurd rfl hne
  | cons v ws ih =>
    cases ws with
    | nil => simpa using hall v (by simp)
    | cons w ws' =>
      have h1 : vecSum (v :: w :: ws') =
          List.zipWith (· + ·) v (vecSum (w :: ws')) := rfl
      rw [h1, List.length_zipWith, hall v (by simp),
        ih (by simp) fun u hu => hall u (by simp [hu])]
      exact min_self d

/-- C1, counterexample: a playlist of two tracks with opposite embeddings
has mean embedding zero; `get_playlist_centroid` returns the zero vector
(`normalize_vector` passes it through), whose norm is 0, not ≈ 1. -/
theorem centroid_unit_counterexample :
    get_playlist_centroid [some [1], some [-1]] = some [0] ∧
    vnorm [0] ≠ 1 := by
  have h4 : vnorm [(0 : ℝ)] = 0 := by
    rw [vnorm]
    norm_num [sumSq]
  constructor
  · have h3 : avg_vector [[(1 : ℝ)], [-1]] = some [0] := by
      rw [avg_vector]
      norm_num [vecSum]
    have h5 : normalize_vector [(0 : ℝ)] = [0] := normalize_vnorm_zero _ h4
    have h6 : ([some [1], some [-1]] : List (Option (List ℝ))).filterMap id =
        [[1], [-1]] := rfl
    rw [get_playlist_centroid, h6, h3]
    simp [h5]
  · rw [h4]
    norm_num

/-- C1, amended: with at least one non-null member embedding, all of a
common positive dimension, `get_playlist_centroid` returns the normalized
mean embedding, and any returned vector is unit-length unless its sum of
squares is zero (the opposite-embeddings degenerate case), in which case its
norm is 0; with no non-null embeddings it returns `None`. -/
theorem centroid_unit_amended (members : List (Option (List ℝ))) (d : ℕ)
    (hd : 0 < d) (hlen : ∀ v ∈ members.filterMap id, v.length = d) :
    (members.filterMap id = [] → get_playlist_centroid members = none) ∧
    (members.filterMap id ≠ [] →
      get_playlist_centroid members =
        some (normalize_vector ((vecSum (members.filterMap id)).map
          fun x => x / ((members.filterMap id).length : ℝ))) ∧
      ∀ c, get_playlist_centroid members = some c →
        (sumSq c ≠ 0 → vnorm c = 1) ∧ (sumSq c = 0 → vnorm c = 0)) := by
  constructor
  · intro h
    rw [get_playlist_centroid, h]
    rfl
  · intro hne
    have hemb : (members.filterMap id).isEmpty = false := by
      cases hm : members.filterMap id with
      | nil => exact absurd hm hne
      | cons v vs => rfl
    have hmean : ((vecSum (members.filterMap id)).map
        fun x => x / ((members.filterMap id).length : ℝ)).length = d := by
      rw [List.length_map]
      exact vecSum_length d _ hne hlen
    have hmne : ((vecSum (members.filterMap id)).map
        fun x => x / ((members.filterMap id).length : ℝ)).isEmpty = false := by
      cases hm : (vecSum (members.filterMap id)).map
          fun x => x / ((members.filterMap id).length : ℝ) with
      | nil =>
        rw [hm] at hmean
        simp at hmean
        omega
      | cons v vs => rfl
    have hres : get_playlist_centroid members =
        some (normalize_vector ((vecSum (members.filterMap id)).map
          fun x => x / ((members.filterMap id).length : ℝ))) := by
      rw [get_playlist_centroid, avg_vector]
      simp only [hemb, Bool.false_eq_true, if_false]
      simp [hmne]
    refine ⟨hres, ?_⟩
    intro c hc
    rw [hres] at hc
    have hc' : c = normalize_vector ((vecSum (members.filterMap id)).map
        fun x => x / ((members.filterMap id).length : ℝ)) :=
      (Option.some_injective _ hc).symm
    constructor
    · intro hsq
      by_cases hz : sumSq ((vecSum (members.filterMap id)).map
          fun x => x / ((members.filterMap id).length : ℝ)) = 0
      · exfalso
        apply hsq
        rw [hc', normalize_vnorm_zero _ (by rw [vnorm, hz, Real.sqrt_zero])]
        exact hz
      · rw [hc']
        exact vnorm_normalize _ hz
    · intro hsq
      rw [vnorm, hsq, Real.sqrt_zero]

/-- C1, witness: a one-track playlist with embedding `[1, 0]` produces the
normalized mean, and the returned vector has unit norm. -/
theorem centroid_unit_witness :
    get_playlist_centroid [some [(1 : ℝ), 0]] =
      some (normalize_vector ((vecSum (([some [1, 0]] :
          List (Option (List ℝ))).filterMap id)).map
        fun x => x / ((([some [1, 0]] :
          List (Option (List ℝ))).filterMap id).length : ℝ))) :=
  ((centroid_unit_amended [some [1, 0]] 2 (by norm_num)
    (by simp)).2 (by simp)).1

/-! ### C3 — the one-retry cap of the knowledge gate -/

/-- When every final track's artist is known, the unknown-tracks filter of
`process_knowledge` is empty. -/
theorem filter_unknown_nil (s : GState)
    (h : ∀ t ∈ s.final_tracks, t.artist ∈ s.known_artists) :
    (s.final_tracks.filter fun t => !(s.known_artists.contains t.artist)).length
      = 0 := by
  rw [List.length_eq_zero]
  exact List.filter_eq_nil_iff.mpr fun t ht => by simp [h t ht]

/-- `process_knowledge` is the identity once the one re-search has been
attempted: both remaining branches return no state updates. -/
theorem process_knowledge_id (s : GState)
    (h2 : s.knowledge_search_attempted = true) :
    process_knowledge s = s := by
  simp [process_knowledge, h2]

/-- C3: if the user declares all shown artists known and no re-search has
happened yet, `process_knowledge` folds the known artists into
`excluded_artists`, marks the retry used, and the router loops back to the
search node (passing through `check_knowledge`, since `search_tracks` resets
that flag); if after that single re-search the user again declares all
shown artists known, `process_knowledge` changes nothing and the router
proceeds to `present_results` — no third retrieval round. -/
theorem knowledge_retry_cap
    (retrieve : Constraints → List String → List Trk) (s : GState)
    (known2 : List String)
    (hall : ∀ t ∈ s.final_tracks, t.artist ∈ s.known_artists)
    (hatt : s.knowledge_search_attempted = false) :
    (process_knowledge s).excluded_artists =
        s.excluded_artists ++ s.known_artists ∧
    (process_knowledge s).knowledge_search_attempted = true ∧
    route_after_process (process_knowledge s) = .to_search_tracks ∧
    route_after_filter
        (filter_tracks (enrich_tracks (search_tracks retrieve
          (process_knowledge s)))) = .to_check_knowledge ∧
    ((∀ t ∈ (submit_knowledge known2 (check_knowledge (filter_tracks
          (enrich_tracks (search_tracks retrieve
            (process_knowledge s)))))).final_tracks, t.artist ∈ known2) →
      process_knowledge (submit_knowledge known2 (check_knowledge
        (filter_tracks (enrich_tracks (search_tracks retrieve
          (process_knowledge s)))))) =
        submit_knowledge known2 (check_knowledge (filter_tracks
          (enrich_tracks (search_tracks retrieve (process_knowledge s))))) ∧
      route_after_process (process_knowledge (submit_knowledge known2
        (check_knowledge (filter_tracks (enrich_tracks (search_tracks retrieve
          (process_knowledge s))))))) = .to_present_results) := by
  have hs1 : process_knowledge s =
      { s with
        knowledge_search_attempted := true
        excluded_artists := s.excluded_artists ++ s.known_artists
        search_done := false
        enriched := false
        filtered := false
        knowledge_checked := true } := by
    simp only [process_knowledge]
    rw [if_pos (filter_unknown_nil s hall), if_pos hatt]
  have hatt2 : (process_knowledge s).knowledge_search_attempted = true := by
    rw [hs1]
  refine ⟨by rw [hs1], hatt2, by rw [hs1]; rfl, rfl, ?_⟩
  intro hall2
  have hatt3 : (submit_knowledge known2 (check_knowledge (filter_tracks
      (enrich_tracks (search_tracks retrieve
        (process_knowledge s)))))).knowledge_search_attempted = true := by
    show (process_knowledge s).knowledge_search_attempted = true
    exact hatt2
  have hid := process_knowledge_id _ hatt3
  exact ⟨hid, by rw [hid]; rfl⟩

/-- C3, witness: a concrete round-1 state whose single shown track's artist
is declared known, with the retry still unused, is routed back to the
search node. -/
theorem knowledge_retry_cap_witness :
    route_after_process (process_knowledge
      (⟨[], [], [⟨"A", none, none⟩], ⟨none, none, none, none⟩, [], ["A"],
        "similar", false, true, false, false, true, false⟩ : GState)) =
      .to_search_tracks :=
  (knowledge_retry_cap (fun _ _ => []) _ [] (by decide) rfl).2.2.1

/-! ### C4 — the artist-diversity filters -/

/-- Cardinality of an insertion, via erasure (valid whether or not the
element is already present). -/
theorem card_insert_erase {α : Type} [DecidableEq α] (a : α) (s : Finset α) :
    (insert a s).card = 1 + (s.erase a).card := by
  by_cases h : a ∈ s
  · rw [Finset.insert_eq_self.mpr h, Finset.card_erase_of_mem h]
    have h1 : 1 ≤ s.card := Finset.card_pos.mpr ⟨a, h⟩
    omega
  · rw [Finset.card_insert_of_not_mem h, Finset.erase_eq_self.mpr h]
    omega

/-- Skipping an already-seen head leaves the distinct-eligible count
unchanged. -/
theorem distinct_cons_skip (a : String) (l seen : List String) (h : a ∈ seen) :
    ((a :: l).filter fun x => x ∉ seen).toFinset.card =
      ((l.filter fun x => x ∉ seen).toFinset).card := by
  rw [List.filter_cons]
  simp [h]

/-- Consuming an unseen head decreases the distinct-eligible count by
exactly one once the head's artist becomes seen. -/
theorem distinct_cons_new (a : String) (l seen : List String) (h : a ∉ seen) :
    ((a :: l).filter fun x => x ∉ seen).toFinset.card =
      1 + ((l.filter fun x => x ∉ (seen ++ [a])).toFinset).card := by
  rw [List.filter_cons, if_pos (decide_eq_true h), List.toFinset_cons,
    card_insert_erase]
  congr 1
  congr 1
  ext x
  simp only [Finset.mem_erase, List.mem_toFinset, List.mem_filter,
    List.mem_append, List.mem_singleton, decide_eq_true_eq]
  constructor
  · rintro ⟨hxa, hxl, hxs⟩
    exact ⟨hxl, by tauto⟩
  · rintro ⟨hxl, hns⟩
    exact ⟨by tauto, hxl, by tauto⟩

/-- `eligDistinct` through a skipped head. -/
theorem eligDistinct_cons_skip (t : STrack) (rest : List STrack)
    (seen : List String) (h : t.artist ∈ seen) :
    eligDistinct (t :: rest) seen = eligDistinct rest seen := by
  unfold eligDistinct
  rw [List.map_cons]
  exact distinct_cons_skip _ _ _ h

/-- `eligDistinct` through an accepted head. -/
theorem eligDistinct_cons_new (t : STrack) (rest : List STrack)
    (seen : List String) (h : t.artist ∉ seen) :
    eligDistinct (t :: rest) seen =
      1 + eligDistinct rest (seen ++ [t.artist]) := by
  unfold eligDistinct
  rw [List.map_cons]
  exact distinct_cons_new _ _ _ h

/-- `dEligDistinct` through a skipped head. -/
theorem dEligDistinct_cons_skip (t : DTrack) (rest : List DTrack)
    (seen : List String) (h : t.artist_folder ∈ seen) :
    dEligDistinct (t :: rest) seen = dEligDistinct rest seen := by
  unfold dEligDistinct
  rw [List.map_cons]
  exact distinct_cons_skip _ _ _ h

/-- `dEligDistinct` through an accepted head. -/
theorem dEligDistinct_cons_new (t : DTrack) (rest : List DTrack)
    (seen : List String) (h : t.artist_folder ∉ seen) :
    dEligDistinct (t :: rest) seen =
      1 + dEligDistinct rest (seen ++ [t.artist_folder]) := by
  unfold dEligDistinct
  rw [List.map_cons]
  exact distinct_cons_new _ _ _ h

/-- Length of the first pass of the similar-tracks diversity filter: it
collects one track per distinct unseen artist, stopping at `wanted`. -/
theorem simLoop_length (wanted : ℕ) (cands : List STrack) :
    ∀ (seen : List String) (filt fall : List STrack),
      filt.length < wanted →
      (simLoop wanted cands seen filt fall).1.length =
        min wanted (filt.length + eligDistinct cands seen) := by
  induction cands with
  | nil =>
    intro seen filt fall h
    simp only [simLoop]
    unfold eligDistinct
    simp
    omega
  | cons t rest ih =>
    intro seen filt fall h
    simp only [simLoop]
    by_cases hs : t.artist ∈ seen
    · rw [if_pos hs, if_neg (by omega : ¬filt.length = wanted),
        ih seen filt _ h, eligDistinct_cons_skip t rest seen hs]
    · rw [if_neg hs, eligDistinct_cons_new t rest seen hs]
      by_cases hw : (filt ++ [t]).length = wanted
      · rw [if_pos hw]
        simp only [List.length_append, List.length_singleton,
          List.length_nil] at hw
        simp only [List.length_append, List.length_singleton, List.length_nil]
        omega
      · rw [if_neg hw]
        have hlt : (filt ++ [t]).length < wanted := by
          simp only [List.length_append, List.length_singleton,
            List.length_nil] at hw ⊢
          omega
        rw [ih _ _ _ hlt]
        simp only [List.length_append, List.length_singleton, List.length_nil]
        omega

/-- Shape of the first pass: the accepted and fallback lists extend their
accumulators with order-preserving sublists of the candidates, the accepted
artists are pairwise distinct and disjoint from the initial seen set. -/
theorem simLoop_shape (wanted : ℕ) (cands : List STrack) :
    ∀ (seen : List String) (filt fall : List STrack),
      ∃ u v, (simLoop wanted cands seen filt fall).1 = filt ++ u ∧
        (simLoop wanted cands seen filt fall).2 = fall ++ v ∧
        u.Sublist cands ∧ v.Sublist cands ∧
        (u.map STrack.artist).Nodup ∧
        ∀ a ∈ u.map STrack.artist, a ∉ seen := by
  induction cands with
  | nil =>
    intro seen filt fall
    exact ⟨[], [], by simp [simLoop], by simp [simLoop], by simp, by simp,
      by simp, by simp⟩
  | cons t rest ih =>
    intro seen filt fall
    simp only [simLoop]
    by_cases hs : t.artist ∈ seen
    · rw [if_pos hs]
      by_cases hw : filt.length = wanted
      · rw [if_pos hw]
        exact ⟨[], [t], by simp, by simp, List.nil_sublist _,
          List.singleton_sublist.mpr (by simp), by simp, by simp⟩
      · rw [if_neg hw]
        obtain ⟨u, v, h1, h2, h3, h4, h5, h6⟩ := ih seen filt (fall ++ [t])
        refine ⟨u, t :: v, h1, ?_, h3.cons _, h4.cons₂ _, h5, h6⟩
        rw [h2, List.append_assoc]
        rfl
    · rw [if_neg hs]
      by_cases hw : (filt ++ [t]).length = wanted
      · rw [if_pos hw]
        exact ⟨[t], [], by simp, by simp,
          List.singleton_sublist.mpr (by simp), List.nil_sublist _,
          by simp, by simp [hs]⟩
      · rw [if_neg hw]
        obtain ⟨u, v, h1, h2, h3, h4, h5, h6⟩ := ih (seen ++ [t.artist])
          (filt ++ [t]) fall
        refine ⟨t :: u, v, ?_, h2, h3.cons₂ _, h4.cons _, ?_, ?_⟩
        · rw [h1, List.append_assoc]
          rfl
        · rw [List.map_cons, List.nodup_cons]
          refine ⟨fun hmem => ?_, h5⟩
          exact (h6 _ hmem) (by simp)
        · intro a ha
          rw [List.map_cons] at ha
          rcases List.mem_cons.mp ha with rfl | ha'
          · exact hs
          · intro hseen
            exact (h6 _ ha') (by simp [hseen])

/-- When the eligible-distinct supply cannot reach `wanted`, the first pass
never breaks: every candidate lands in the accepted or the fallback list. -/
theorem simLoop_total (wanted : ℕ) (cands : List STrack) :
    ∀ (seen : List String) (filt fall : List STrack),
      filt.length + eligDistinct cands seen < wanted →
      (simLoop wanted cands seen filt fall).1.length +
          (simLoop wanted cands seen filt fall).2.length =
        filt.length + fall.length + cands.length := by
  induction cands with
  | nil =>
    intro seen filt fall _
    simp [simLoop]
  | cons t rest ih =>
    intro seen filt fall h
    simp only [simLoop]
    by_cases hs : t.artist ∈ seen
    · rw [eligDistinct_cons_skip t rest seen hs] at h
      rw [if_pos hs, if_neg (by omega : ¬filt.length = wanted),
        ih seen filt (fall ++ [t]) h]
      simp only [List.length_append, List.length_singleton, List.length_cons,
        List.length_nil]
      omega
    · rw [eligDistinct_cons_new t rest seen hs] at h
      have hw : ¬(filt ++ [t]).length = wanted := by
        simp only [List.length_append, List.length_singleton, List.length_nil]
        omega
      rw [if_neg hs, if_neg hw,
        ih (seen ++ [t.artist]) (filt ++ [t]) fall
          (by simp only [List.length_append, List.length_singleton,
            List.length_nil]; omega)]
      simp only [List.length_append, List.length_singleton, List.length_cons,
        List.length_nil]
      omega

/-- Length and shape of the discovery-handler diversity loop: it collects
one track per distinct unseen `artist_folder`, stopping at the limit, with
no fallback fill. -/
theorem dGo_spec (lim : ℕ) (cands : List DTrack) :
    ∀ (seen : List String) (acc : List DTrack),
      acc.length < lim →
      (dGo lim cands seen acc).length =
          min lim (acc.length + dEligDistinct cands seen) ∧
      ∃ u, dGo lim cands seen acc = acc ++ u ∧ u.Sublist cands ∧
        (u.map DTrack.artist_folder).Nodup ∧
        ∀ a ∈ u.map DTrack.artist_folder, a ∉ seen := by
  induction cands with
  | nil =>
    intro seen acc h
    refine ⟨?_, [], by simp [dGo], by simp, by simp, by simp⟩
    simp only [dGo]
    unfold dEligDistinct
    simp
    omega
  | cons t rest ih =>
    intro seen acc h
    simp only [dGo]
    by_cases hs : t.artist_folder ∈ seen
    · rw [if_pos hs, if_neg (by omega : ¬lim ≤ acc.length)]
      obtain ⟨hlen, u, h1, h2, h3, h4⟩ := ih seen acc h
      exact ⟨by rw [hlen, dEligDistinct_cons_skip t rest seen hs], u, h1,
        h2.cons _, h3, h4⟩
    · rw [if_neg hs, dEligDistinct_cons_new t rest seen hs]
      by_cases hw : lim ≤ (acc ++ [t]).length
      · rw [if_pos hw]
        have hlen : (acc ++ [t]).length = lim := by
          simp only [List.length_append, List.length_singleton] at hw ⊢
          omega
        refine ⟨?_, [t], rfl, List.singleton_sublist.mpr (by simp),
          by simp, by simp [hs]⟩
        rw [hlen]
        simp only [List.length_append, List.length_singleton] at hlen
        omega
      · rw [if_neg hw]
        have hlt : (acc ++ [t]).length < lim := by omega
        obtain ⟨hlen, u, h1, h2, h3, h4⟩ := ih (seen ++ [t.artist_folder])
          (acc ++ [t]) hlt
        refine ⟨?_, t :: u, ?_, h2.cons₂ _, ?_, ?_⟩
        · rw [hlen]
          simp only [List.length_append, List.length_singleton]
          omega
        · rw [h1, List.append_assoc]
          rfl
        · rw [List.map_cons, List.nodup_cons]
          exact ⟨fun hmem => (h4 _ hmem) (by simp), h3⟩
        · intro a ha
          rw [List.map_cons] at ha
          rcases List.mem_cons.mp ha with rfl | ha'
          · exact hs
          · intro hseen
            exact (h4 _ ha') (by simp [hseen])

/-- C4, counterexample: the discovery-handler diversity filter has no
fallback fill — two candidates by the same artist with limit 2 yield a
single result, not `min(wanted, len(candidates)) = 2`. -/
theorem diversity_fallback_counterexample :
    filter_diverse_results [⟨1, "A"⟩, ⟨2, "A"⟩] 2 = [⟨1, "A"⟩] ∧
    (filter_diverse_results [⟨1, "A"⟩, ⟨2, "A"⟩] 2).length ≠
      min 2 ([⟨1, "A"⟩, ⟨2, "A"⟩] : List DTrack).length := by
  decide

/-- C4, amended: the similar-tracks handler's two-pass filter satisfies both
spec properties (for a positive requested count): with at least `wanted`
distinct eligible artists it returns exactly `wanted` tracks with pairwise
distinct artists, and with fewer it returns `min wanted (len candidates)`
tracks, the diverse rank-ordered picks first followed by rank-ordered
fallback picks.  The discovery handler's one-pass filter instead returns
`min limit (distinct artists)` tracks — one per artist, rank-ordered,
truncated, with no fallback fill. -/
theorem artist_diversity_amended :
    (∀ (cands : List STrack) (seed : List String) (wanted : ℕ),
      1 ≤ wanted → wanted ≤ eligDistinct cands seed →
      (similar_tracks_diversity cands seed wanted).length = wanted ∧
      ((similar_tracks_diversity cands seed wanted).map STrack.artist).Nodup) ∧
    (∀ (cands : List STrack) (seed : List String) (wanted : ℕ),
      1 ≤ wanted → eligDistinct cands seed < wanted →
      (similar_tracks_diversity cands seed wanted).length =
        min wanted cands.length ∧
      ∃ u v, similar_tracks_diversity cands seed wanted = u ++ v ∧
        u.Sublist cands ∧ v.Sublist cands ∧
        (u.map STrack.artist).Nodup ∧
        (∀ a ∈ u.map STrack.artist, a ∉ seed) ∧
        u.length = eligDistinct cands seed) ∧
    (∀ (cands : List DTrack) (lim : ℕ), 1 ≤ lim →
      (filter_diverse_results cands lim).length =
        min lim (dEligDistinct cands []) ∧
      ((filter_diverse_results cands lim).map DTrack.artist_folder).Nodup ∧
      (filter_diverse_results cands lim).Sublist cands) := by
  refine ⟨?_, ?_, ?_⟩
  · intro cands seed wanted hw he
    have hlen := simLoop_length wanted cands seed [] [] (by simpa using hw)
    simp only [List.length_nil, Nat.zero_add] at hlen
    have hlen' : (simLoop wanted cands seed [] []).1.length = wanted := by
      omega
    obtain ⟨u, v, h1, -, -, -, h5, -⟩ := simLoop_shape wanted cands seed [] []
    simp only [List.nil_append] at h1
    have hout : similar_tracks_diversity cands seed wanted =
        (simLoop wanted cands seed [] []).1 := by
      simp only [similar_tracks_diversity]
      rw [if_neg (by omega)]
    rw [hout, hlen']
    exact ⟨rfl, by rw [h1]; exact h5⟩
  · intro cands seed wanted hw he
    have hlen := simLoop_length wanted cands seed [] [] (by simpa using hw)
    simp only [List.length_nil, Nat.zero_add] at hlen
    have hlen' : (simLoop wanted cands seed [] []).1.length =
        eligDistinct cands seed := by omega
    have htot := simLoop_total wanted cands seed [] [] (by simpa using he)
    simp only [List.length_nil] at htot
    have hout : similar_tracks_diversity cands seed wanted =
        (simLoop wanted cands seed [] []).1 ++
          (simLoop wanted cands seed [] []).2.take
            (wanted - (simLoop wanted cands seed [] []).1.length) := by
      simp only [similar_tracks_diversity]
      rw [if_pos (by omega)]
    obtain ⟨u, v, h1, h2, h3, h4, h5, h6⟩ := simLoop_shape wanted cands seed [] []
    simp only [List.nil_append] at h1 h2
    constructor
    · rw [hout, List.length_append, List.length_take, hlen']
      omega
    · refine ⟨(simLoop wanted cands seed [] []).1,
        (simLoop wanted cands seed [] []).2.take
          (wanted - (simLoop wanted cands seed [] []).1.length),
        hout, by rw [h1]; exact h3, ?_, by rw [h1]; exact h5,
        by rw [h1]; exact h6, hlen'⟩
      rw [h2]
      exact (List.take_sublist _ _).trans h4
  · intro cands lim hl
    obtain ⟨hlen, u, h1, h2, h3, h4⟩ := dGo_spec lim cands [] [] (by simpa using hl)
    simp only [List.length_nil, Nat.zero_add] at hlen
    simp only [List.nil_append] at h1
    refine ⟨hlen, ?_, ?_⟩
    · rw [filter_diverse_results, h1]
      exact h3
    · rw [filter_diverse_results, h1]
      exact h2

/-- C4, witness: four ranked candidates spanning three eligible artists
with `wanted = 3` yield exactly three tracks by three distinct artists. -/
theorem artist_diversity_amended_witness :
    (similar_tracks_diversity [⟨1, "A"⟩, ⟨2, "A"⟩, ⟨3, "B"⟩, ⟨4, "C"⟩]
      ["S"] 3).length = 3 :=
  (artist_diversity_amended.1 [⟨1, "A"⟩, ⟨2, "A"⟩, ⟨3, "B"⟩, ⟨4, "C"⟩]
    ["S"] 3 (by omega) (by decide)).1

/-! ### C5 — null features under the range filters -/

/-- C5, counterexample: `filter_tracks_strict` keeps a track whose BPM is
null even though a `min_bpm` filter is supplied — the in-memory strict
filter does not exclude null-valued tracks. -/
theorem strict_filter_null_counterexample :
    filter_tracks_strict [⟨"X", none, none⟩] ⟨some 120, none, none, none⟩ =
      [⟨"X", none, none⟩] := by
  decide

/-- C5, amended: the SQL query excludes tracks with a null value for a
filtered dimension (three-valued logic), and the composed
search-then-strict-filter pipeline therefore never outputs a null-valued
track; but `filter_tracks_strict` on its own passes every track whose
filtered dimensions are null. -/
theorem null_feature_filter_semantics :
    (∀ (table : List Row) (opDist : List ℚ → List ℚ → ℚ) (p : SearchParams)
       (r : Row), r ∈ search_hidden_gems_with_filters table opDist p →
       ∃ b e, r.bpm = some b ∧ r.energy = some e ∧
         p.min_bpm ≤ b ∧ b ≤ p.max_bpm ∧ p.min_energy ≤ e ∧ e ≤ p.max_energy) ∧
    (∀ (tracks : List Trk) (c : Constraints) (t : Trk),
       t ∈ tracks → t.bpm = none → t.energy = none →
       t ∈ filter_tracks_strict tracks c) ∧
    (∀ (table : List Row) (opDist : List ℚ → List ℚ → ℚ) (c : Constraints)
       (cen : List ℚ) (ids : List ℤ) (arts : List String) (lim : ℕ) (t : Trk),
       t ∈ filter_tracks_strict
             ((search_hidden_gems_with_filters table opDist
                 (paramsOfConstraints c cen ids arts lim)).map Row.toTrk) c →
       t.bpm ≠ none ∧ t.energy ≠ none) := by
  have main : ∀ (table : List Row) (opDist : List ℚ → List ℚ → ℚ)
      (p : SearchParams) (r : Row), r ∈ search_hidden_gems_with_filters table opDist p →
      ∃ b e, r.bpm = some b ∧ r.energy = some e ∧
        p.min_bpm ≤ b ∧ b ≤ p.max_bpm ∧ p.min_energy ≤ e ∧ e ≤ p.max_energy := by
    intro table opDist p r hr
    have hr1 : r ∈ List.insertionSort
        (fun r1 r2 => opDist p.centroid (r1.embedding.getD []) ≤
                      opDist p.centroid (r2.embedding.getD []))
        (table.filter (sql_row_matches p)) :=
      List.Sublist.mem hr (List.take_sublist _ _)
    have hr2 : r ∈ table.filter (sql_row_matches p) :=
      (List.perm_insertionSort _ _).mem_iff.mp hr1
    have hm : sql_row_matches p r = true := (List.mem_filter.mp hr2).2
    unfold sql_row_matches at hm
    simp only [Bool.and_eq_true, decide_eq_true_eq] at hm
    rcases hb : r.bpm with _ | b
    · rw [hb] at hm
      simp at hm
    rcases he : r.energy with _ | e
    · rw [he] at hm
      simp at hm
    rw [hb, he] at hm
    simp only [Bool.and_eq_true, decide_eq_true_eq] at hm
    exact ⟨b, e, rfl, rfl, hm.1.1.1.2.1, hm.1.1.1.2.2, hm.1.1.2.1, hm.1.1.2.2⟩
  refine ⟨main, ?_, ?_⟩
  · intro tracks c t ht hb he
    refine List.mem_filter.mpr ⟨ht, ?_⟩
    simp [passes_bpm, passes_energy, hb, he]
  · intro table opDist c cen ids arts lim t ht
    have ht1 : t ∈ (search_hidden_gems_with_filters table opDist
        (paramsOfConstraints c cen ids arts lim)).map Row.toTrk :=
      (List.mem_filter.mp ht).1
    obtain ⟨r, hr, rfl⟩ := List.mem_map.mp ht1
    obtain ⟨b, e, hb, he, -⟩ := main _ _ _ _ hr
    exact ⟨by simp [Row.toTrk, hb], by simp [Row.toTrk, he]⟩

/-- C5, witness: the strict in-memory filter keeps a fully-null track under
a supplied BPM filter (instantiating the null-pass-through clause), and a
one-row table with a null-BPM row yields an empty composed pipeline. -/
theorem null_feature_filter_semantics_witness :
    (⟨"X", none, none⟩ : Trk) ∈
      filter_tracks_strict [⟨"X", none, none⟩] ⟨some 120, none, none, none⟩ :=
  null_feature_filter_semantics.2.1 [⟨"X", none, none⟩]
    ⟨some 120, none, none, none⟩ ⟨"X", none, none⟩ (by decide) rfl rfl

/-! ### C6 — the "Energy" vibe scoring scenario -/

/-- C6, counterexample: on the ten synthetic tracks with energies
`0.1 ... 1.0`, the "Energy" vibe filter returns tracks whose energy is not
greater than `0.7` (the top-5 truncation back-fills with score-0 tracks),
even though three tracks qualify at the threshold. -/
theorem vibe_energy_scenario_counterexample :
    ¬ ∀ t ∈ filter_by_vibe vibeScenarioTracks "Energy",
        (7 : ℚ) / 10 < t.energy.getD 0 := by
  with_unfolding_all decide

/-- C6, amended: on the scenario input, the "Energy" filter returns the
top 5 tracks of a stable descending sort by integer vibe score: the three
tracks with energy above `0.7` first, in their original (ascending-energy)
order, followed by the first two score-zero tracks, with energies `0.1` and
`0.2` — neither all above the threshold nor sorted descending by energy. -/
theorem vibe_energy_scenario_amended :
    filter_by_vibe vibeScenarioTracks "Energy" =
      [⟨8, some (8 / 10), none, none, none, none⟩,
       ⟨9, some (9 / 10), none, none, none, none⟩,
       ⟨10, some 1, none, none, none, none⟩,
       ⟨1, some (1 / 10), none, none, none, none⟩,
       ⟨2, some (2 / 10), none, none, none, none⟩] := by
  with_unfolding_all decide

/-! ### C7 — the "Surprise" branch of the vibe filter -/

/-- C7: the "Surprise" branch of `filter_by_vibe` returns its input
unchanged — in particular all ten scenario tracks, not at most five.  This
contradicts the function's own documented contract ("Returns: Filtered and
sorted list of tracks (top 5)"). -/
theorem filter_by_vibe_surprise_no_truncation :
    (∀ tracks : List VTrack, filter_by_vibe tracks "Surprise" = tracks) ∧
    (filter_by_vibe vibeScenarioTracks "Surprise").length = 10 := by
  constructor
  · intro tracks
    rfl
  · decide

/-! ### C9 — monotonicity of the exclusion state -/

/-- C9, counterexample: the `submit_knowledge` resume action replaces
`known_artists` with the payload, so an artist declared known in an earlier
round ("A") is lost when the next round's payload (["B"]) arrives. -/
theorem exclusion_monotonicity_counterexample :
    "A" ∈ (⟨[], [], [], ⟨none, none, none, none⟩, [], ["A"], "similar",
            false, true, false, false, true, false⟩ : GState).known_artists ∧
    "A" ∉ (submit_knowledge ["B"]
            ⟨[], [], [], ⟨none, none, none, none⟩, [], ["A"], "similar",
             false, true, false, false, true, false⟩).known_artists := by
  decide

/-- C9, amended: `excluded_artists` is monotone — every modelled transition
(each graph node and each resume update) only preserves or extends it, with
`process_knowledge` the only extender — while `known_artists` is not an
accumulator: each `submit_knowledge` resume replaces it wholesale with the
new payload. -/
theorem exclusion_monotonicity_amended :
    (∀ s : GState, s.excluded_artists ⊆ (process_knowledge s).excluded_artists) ∧
    (∀ (r : Constraints → List String → List Trk) (s : GState),
      (search_tracks r s).excluded_artists = s.excluded_artists) ∧
    (∀ s : GState, (enrich_tracks s).excluded_artists = s.excluded_artists) ∧
    (∀ s : GState, (filter_tracks s).excluded_artists = s.excluded_artists) ∧
    (∀ s : GState, (check_knowledge s).excluded_artists = s.excluded_artists) ∧
    (∀ s : GState, (present_results s).excluded_artists = s.excluded_artists) ∧
    (∀ (p : List String) (s : GState),
      (submit_knowledge p s).excluded_artists = s.excluded_artists) ∧
    (∀ (p : List String) (s : GState),
      (submit_knowledge p s).known_artists = p) := by
  refine ⟨?_, fun _ _ => rfl, fun _ => rfl, fun _ => rfl, fun _ => rfl,
    fun _ => rfl, fun _ _ => rfl, fun _ _ => rfl⟩
  intro s x hx
  simp only [process_knowledge]
  split <;> (try split) <;>
    first
      | exact List.mem_append_left _ hx
      | exact hx

/-! ### C10 — the pgvector text-codec round trip -/

/-- Folding digits from an arbitrary accumulator. -/
theorem foldl_digits_acc (l : List ℕ) : ∀ acc : ℕ,
    l.foldl (fun a d => 10 * a + d) acc = acc * 10 ^ l.length + ofDigits l := by
  induction l with
  | nil =>
    intro acc
    simp [ofDigits]
  | cons d l ih =>
    intro acc
    show l.foldl _ (10 * acc + d) = acc * 10 ^ (d :: l).length + ofDigits (d :: l)
    have h2 : ofDigits (d :: l) = d * 10 ^ l.length + ofDigits l := by
      show l.foldl _ (10 * 0 + d) = _
      rw [ih (10 * 0 + d)]
      ring
    rw [ih (10 * acc + d), h2, List.length_cons]
    ring

/-- `ofDigits` across an append. -/
theorem ofDigits_append (l1 l2 : List ℕ) :
    ofDigits (l1 ++ l2) = ofDigits l1 * 10 ^ l2.length + ofDigits l2 := by
  show (l1 ++ l2).foldl _ 0 = _
  rw [List.foldl_append]
  exact foldl_digits_acc l2 _

/-- Leading zeros carry no value. -/
theorem ofDigits_replicate_zero (k : ℕ) : ofDigits (List.replicate k 0) = 0 := by
  induction k with
  | zero => rfl
  | succ k ih =>
    show ofDigits (0 :: List.replicate k 0) = 0
    exact ih

/-- The fuelled digit expansion is correct whenever the fuel suffices. -/
theorem natDigitsAux_spec : ∀ fuel n : ℕ, n ≤ fuel →
    ofDigits (natDigitsAux fuel n) = n ∧
    (∀ d ∈ natDigitsAux fuel n, d < 10) ∧ natDigitsAux fuel n ≠ [] := by
  intro fuel
  induction fuel with
  | zero =>
    intro n hn
    have hn0 : n = 0 := by omega
    subst hn0
    exact ⟨rfl, by intro d hd; simp [natDigitsAux] at hd; omega, by simp [natDigitsAux]⟩
  | succ fuel ih =>
    intro n hn
    simp only [natDigitsAux]
    by_cases h10 : n < 10
    · rw [if_pos h10]
      refine ⟨by simp [ofDigits], ?_, by simp⟩
      intro d hd
      simp at hd
      omega
    · rw [if_neg h10]
      have hdiv : n / 10 ≤ fuel := by
        have := Nat.div_lt_self (by omega : 0 < n) (by omega : 1 < 10)
        omega
      obtain ⟨h1, h2, -⟩ := ih (n / 10) hdiv
      refine ⟨?_, ?_, by simp⟩
      · rw [ofDigits_append, h1]
        have h3 : ofDigits [n % 10] = n % 10 := by simp [ofDigits]
        rw [h3, List.length_singleton, pow_one]
        omega
      · intro d hd
        rcases List.mem_append.mp hd with h | h
        · exact h2 d h
        · simp at h
          omega

/-- `natDigits` is a correct all-digits decimal expansion. -/
theorem natDigits_spec (n : ℕ) :
    ofDigits (natDigits n) = n ∧
    (∀ d ∈ natDigits n, d < 10) ∧ natDigits n ≠ [] :=
  natDigitsAux_spec n n le_rfl

/-- `digitChar` produces a digit character that `charDigit` inverts and
that is distinct from every structural character of the codec grammar. -/
theorem digitChar_props (d : ℕ) (h : d < 10) :
    charDigit (digitChar d) = some d ∧ digitChar d ≠ '.' ∧ digitChar d ≠ ',' ∧
    digitChar d ≠ '-' ∧ digitChar d ≠ '[' ∧ digitChar d ≠ ']' ∧
    isSpaceChar (digitChar d) = false := by
  interval_cases d <;> decide

/-- The digit-accumulator parser inverts `digitChar` mapping. -/
theorem parseDigitsAux_map (l : List ℕ) : ∀ acc : ℕ, (∀ d ∈ l, d < 10) →
    parseDigitsAux (l.map digitChar) acc =
      some (l.foldl (fun a d => 10 * a + d) acc) := by
  induction l with
  | nil =>
    intro acc _
    rfl
  | cons d l ih =>
    intro acc hall
    show parseDigitsAux (digitChar d :: l.map digitChar) acc = _
    simp only [parseDigitsAux, (digitChar_props d (hall d (by simp))).1]
    exact ih (10 * acc + d) fun x hx => hall x (by simp [hx])

/-- Parsing a rendered digit string recovers its value. -/
theorem parseNat0_map (l : List ℕ) (hall : ∀ d ∈ l, d < 10) :
    parseNat0 (l.map digitChar) = some (ofDigits l) :=
  parseDigitsAux_map l 0 hall

/-- `takeWhile` runs through a satisfying prefix and stops at the
delimiter. -/
theorem takeWhile_all_append (p : Char → Bool) (l1 : List Char) (x : Char)
    (l2 : List Char) (h1 : ∀ c ∈ l1, p c = true) (h2 : p x = false) :
    (l1 ++ x :: l2).takeWhile p = l1 := by
  induction l1 with
  | nil =>
    simp only [List.nil_append]
    exact List.takeWhile_cons_of_neg (by simp [h2])
  | cons c l ih =>
    rw [List.cons_append, List.takeWhile_cons_of_pos (h1 c (by simp)),
      ih fun c hc => h1 c (by simp [hc])]

/-- `dropWhile` runs through a satisfying prefix and keeps the rest. -/
theorem dropWhile_all_append (p : Char → Bool) (l1 : List Char) (x : Char)
    (l2 : List Char) (h1 : ∀ c ∈ l1, p c = true) (h2 : p x = false) :
    (l1 ++ x :: l2).dropWhile p = x :: l2 := by
  induction l1 with
  | nil =>
    simp only [List.nil_append]
    exact List.dropWhile_cons_of_neg (by simp [h2])
  | cons c l ih =>
    rw [List.cons_append, List.dropWhile_cons_of_pos (h1 c (by simp)),
      ih fun c hc => h1 c (by simp [hc])]

/-- A list on which the predicate is nowhere true is unchanged by
`dropWhile`. -/
theorem dropWhile_all_false (p : Char → Bool) (l : List Char)
    (h : ∀ c ∈ l, p c = false) : l.dropWhile p = l := by
  cases l with
  | nil => rfl
  | cons c l => exact List.dropWhile_cons_of_neg (by simp [h c (by simp)])

/-- Stripping a string with no surrounding whitespace is the identity. -/
theorem stripChars_eq (cs : List Char) (h : ∀ c ∈ cs, isSpaceChar c = false) :
    stripChars cs = cs := by
  unfold stripChars
  rw [dropWhile_all_false _ _ h,
    dropWhile_all_false _ _ fun c hc => h c (List.mem_reverse.mp hc),
    List.reverse_reverse]

/-- The unsigned-literal parser recovers the value of a rendered
integer-part/fraction-part digit pair. -/
theorem parseAbsQ_digits (ip fp : List ℕ) (hip : ∀ d ∈ ip, d < 10)
    (hfp : ∀ d ∈ fp, d < 10) :
    parseAbsQ (ip.map digitChar ++ '.' :: fp.map digitChar) =
      some ((ofDigits ip : ℚ) + (ofDigits fp : ℚ) / 10 ^ fp.length) := by
  have hdotip : ('.' : Char) ∉ ip.map digitChar := by
    intro hmem
    obtain ⟨d, hd, hdc⟩ := List.mem_map.mp hmem
    exact (digitChar_props d (hip d hd)).2.1 hdc
  have hdotfp : ('.' : Char) ∉ fp.map digitChar := by
    intro hmem
    obtain ⟨d, hd, hdc⟩ := List.mem_map.mp hmem
    exact (digitChar_props d (hfp d hd)).2.1 hdc
  have hne : (ip.map digitChar ++ '.' :: fp.map digitChar).isEmpty = false := by
    rw [List.isEmpty_eq_false]
    simp
  have hcount : (ip.map digitChar ++ '.' :: fp.map digitChar).count '.' = 1 := by
    rw [List.count_append, List.count_cons_self, List.count_eq_zero.mpr hdotip,
      List.count_eq_zero.mpr hdotfp]
  unfold parseAbsQ
  rw [hne]
  simp only [Bool.false_eq_true, if_false]
  rw [hcount]
  simp only [OfNat.one_ne_ofNat, if_false, if_pos rfl]
  rw [takeWhile_all_append _ _ _ _
      (fun c hc => by
        obtain ⟨d, hd, rfl⟩ := List.mem_map.mp hc
        simp [(digitChar_props d (hip d hd)).2.1])
      (by simp),
    dropWhile_all_append _ _ _ _
      (fun c hc => by
        obtain ⟨d, hd, rfl⟩ := List.mem_map.mp hc
        simp [(digitChar_props d (hip d hd)).2.1])
      (by simp)]
  rw [List.tail_cons, parseNat0_map ip hip, parseNat0_map fp hfp]
  simp [List.length_map]

/-- Every digit of the padded mantissa is a decimal digit. -/
theorem paddedOf_digits (q : ℚ) : ∀ d ∈ paddedOf q, d < 10 := by
  intro d hd
  rcases List.mem_append.mp hd with h | h
  · rw [List.eq_of_mem_replicate h]
    omega
  · exact (natDigits_spec _).2.1 d h

/-- The padded mantissa has at least `q.den + 1` digits. -/
theorem paddedOf_len (q : ℚ) : q.den + 1 ≤ (paddedOf q).length := by
  unfold paddedOf
  rw [List.length_append, List.length_replicate]
  omega

/-- The integer part of the rendering is non-empty. -/
theorem ipOf_ne_nil (q : ℚ) : ipOf q ≠ [] := by
  have h1 : 0 < (ipOf q).length := by
    unfold ipOf
    rw [List.length_take]
    have := paddedOf_len q
    omega
  exact List.length_pos.mp h1

/-- The fraction part of the rendering has exactly `q.den` digits. -/
theorem fpOf_length (q : ℚ) : (fpOf q).length = q.den := by
  unfold fpOf
  rw [List.length_drop]
  have := paddedOf_len q
  omega

/-- The digits of the rendering encode the scaled mantissa. -/
theorem ipOf_fpOf_value (q : ℚ) :
    ofDigits (ipOf q) * 10 ^ q.den + ofDigits (fpOf q) = (mOf q).natAbs := by
  have h1 : ofDigits (ipOf q ++ fpOf q) = (mOf q).natAbs := by
    show ofDigits ((paddedOf q).take _ ++ (paddedOf q).drop _) = _
    rw [List.take_append_drop]
    unfold paddedOf
    rw [ofDigits_append, ofDigits_replicate_zero, (natDigits_spec _).1]
    ring
  rw [ofDigits_append, fpOf_length] at h1
  exact h1

/-- The rendered digit pair evaluates back to the rational, including the
sign. -/
theorem value_eq (q : ℚ) (hq : IsDecimal q) :
    (if q.num < 0 then (-1 : ℚ) else 1) *
      ((ofDigits (ipOf q) : ℚ) + (ofDigits (fpOf q) : ℚ) / 10 ^ q.den) = q := by
  have hden0 : ((q.den : ℚ)) ≠ 0 := Nat.cast_ne_zero.mpr q.den_nz
  have hdenpos : (0 : ℤ) < (q.den : ℤ) := by
    exact_mod_cast Nat.pos_of_ne_zero q.den_nz
  have h10 : ((10 : ℚ)) ^ q.den ≠ 0 := pow_ne_zero _ (by norm_num)
  have hdvd10 : ((q.den : ℤ)) ∣ (10 : ℤ) ^ q.den := by
    have := Int.natCast_dvd_natCast.mpr hq
    push_cast at this
    exact this
  have hm : mOf q * (q.den : ℤ) = q.num * 10 ^ q.den :=
    Int.ediv_mul_cancel (hdvd10.mul_left q.num)
  have hcast : (mOf q : ℚ) * (q.den : ℚ) = (q.num : ℚ) * 10 ^ q.den := by
    exact_mod_cast congrArg (fun z : ℤ => (z : ℚ)) hm
  have hnum : q * (q.den : ℚ) = (q.num : ℚ) :=
    calc q * (q.den : ℚ) = (q.num : ℚ) / (q.den : ℚ) * (q.den : ℚ) := by
          rw [Rat.num_div_den]
      _ = (q.num : ℚ) := div_mul_cancel₀ _ hden0
  have hmq : (mOf q : ℚ) = q * 10 ^ q.den := by
    have h2 : (mOf q : ℚ) * q.den = q * 10 ^ q.den * q.den := by
      rw [hcast, ← hnum]
      ring
    exact mul_right_cancel₀ hden0 h2
  have hval : ((ofDigits (ipOf q) : ℚ) + (ofDigits (fpOf q) : ℚ) / 10 ^ q.den) =
      ((mOf q).natAbs : ℚ) / 10 ^ q.den := by
    have h := ipOf_fpOf_value q
    have h' : ((ofDigits (ipOf q) : ℚ)) * 10 ^ q.den + (ofDigits (fpOf q) : ℚ) =
        ((mOf q).natAbs : ℚ) := by
      exact_mod_cast congrArg (fun n : ℕ => (n : ℚ)) h
    field_simp
    linarith [h']
  by_cases hneg : q.num < 0
  · have hmneg : mOf q < 0 :=
      Int.ediv_neg' (mul_neg_of_neg_of_pos hneg (pow_pos (by norm_num) _)) hdenpos
    have hna : (((mOf q).natAbs : ℕ) : ℚ) = -(mOf q : ℚ) := by
      rw [Int.cast_natAbs, abs_of_neg hmneg]
      push_cast
      ring
    rw [if_pos hneg, hval, hna, hmq]
    field_simp
  · have hmpos : 0 ≤ mOf q :=
      Int.ediv_nonneg
        (mul_nonneg (by omega : (0 : ℤ) ≤ q.num) (pow_nonneg (by norm_num) _))
        (le_of_lt hdenpos)
    have hna : (((mOf q).natAbs : ℕ) : ℚ) = (mOf q : ℚ) := by
      rw [Int.cast_natAbs, abs_of_nonneg hmpos]
    rw [if_neg hneg, hval, hna, hmq]
    field_simp

/-- The signed parser on a leading minus. -/
theorem parseNumQ_cons_neg (l : List Char) :
    parseNumQ ('-' :: l) = (parseAbsQ l).map fun x => -x := by
  simp [parseNumQ]

/-- The signed parser without a leading minus. -/
theorem parseNumQ_not_neg (cs : List Char) (h : cs.head? ≠ some '-') :
    parseNumQ cs = parseAbsQ cs := by
  rw [parseNumQ, if_neg h]

/-- Parsing a full rendering recovers the rational exactly. -/
theorem parseNumQ_renderQ (q : ℚ) (hq : IsDecimal q) :
    parseNumQ (renderQ q) = some q := by
  have hip : ∀ d ∈ ipOf q, d < 10 :=
    fun d hd => paddedOf_digits q d (List.mem_of_mem_take hd)
  have hfp : ∀ d ∈ fpOf q, d < 10 :=
    fun d hd => paddedOf_digits q d (List.mem_of_mem_drop hd)
  have habs := parseAbsQ_digits (ipOf q) (fpOf q) hip hfp
  rw [fpOf_length] at habs
  obtain ⟨d0, ip', hip'⟩ := List.exists_cons_of_ne_nil (ipOf_ne_nil q)
  have hv := value_eq q hq
  unfold renderQ
  by_cases hneg : q.num < 0
  · rw [if_pos hneg] at hv
    rw [if_pos hneg, List.singleton_append, List.cons_append,
      parseNumQ_cons_neg, habs]
    simp only [Option.map_some']
    congr 1
    linarith [hv]
  · rw [if_neg hneg] at hv
    have hhead : ((ipOf q).map digitChar ++
        '.' :: (fpOf q).map digitChar).head? ≠ some '-' := by
      rw [hip', List.map_cons, List.cons_append, List.head?_cons]
      intro hcontra
      exact (digitChar_props d0 (hip d0 (by rw [hip']; simp))).2.2.2.1
        (Option.some_injective _ hcontra)
    rw [if_neg hneg, List.nil_append, parseNumQ_not_neg _ hhead, habs]
    congr 1
    linarith [hv]

/-- A comma-free segment is not split. -/
theorem splitOnComma_no_comma : ∀ p : List Char, (',' : Char) ∉ p →
    splitOnComma p = [p] := by
  intro p
  induction p with
  | nil =>
    intro _
    rfl
  | cons c rest ih =>
    intro h
    have hc : c ≠ ',' := fun hcc => h (by simp [hcc])
    simp only [splitOnComma]
    rw [if_neg hc, ih fun hm => h (by simp [hm])]

/-- Splitting at the first comma after a comma-free segment. -/
theorem splitOnComma_append_comma : ∀ p t : List Char, (',' : Char) ∉ p →
    splitOnComma (p ++ ',' :: t) = p :: splitOnComma t := by
  intro p
  induction p with
  | nil =>
    intro t _
    simp [splitOnComma]
  | cons c rest ih =>
    intro t h
    have hc : c ≠ ',' := fun hcc => h (by simp [hcc])
    rw [List.cons_append]
    simp only [splitOnComma]
    rw [if_neg hc, ih t fun hm => h (by simp [hm])]

/-- `splitOnComma` inverts the comma-join of comma-free parts. -/
theorem splitOnComma_joinComma : ∀ parts : List (List Char), parts ≠ [] →
    (∀ p ∈ parts, (',' : Char) ∉ p) →
    splitOnComma (joinComma parts) = parts := by
  intro parts
  induction parts with
  | nil =>
    intro h _
    exact absurd rfl h
  | cons p ps ih =>
    intro _ h
    cases ps with
    | nil => exact splitOnComma_no_comma p (h p (by simp))
    | cons p2 ps2 =>
      show splitOnComma (p ++ ',' :: joinComma (p2 :: ps2)) = p :: p2 :: ps2
      rw [splitOnComma_append_comma _ _ (h p (by simp)),
        ih (by simp) fun x hx => h x (by simp [hx])]

/-- Every character of a comma-join is a comma or comes from a part. -/
theorem mem_joinComma : ∀ (parts : List (List Char)) (c : Char),
    c ∈ joinComma parts → c = ',' ∨ ∃ p ∈ parts, c ∈ p := by
  intro parts
  induction parts with
  | nil =>
    intro c hc
    simp [joinComma] at hc
  | cons p ps ih =>
    intro c hc
    cases ps with
    | nil => exact Or.inr ⟨p, by simp, hc⟩
    | cons p2 ps2 =>
      simp only [joinComma] at hc
      rcases List.mem_append.mp hc with h | h
      · exact Or.inr ⟨p, by simp, h⟩
      · rcases List.mem_cons.mp h with rfl | h2
        · exact Or.inl rfl
        · rcases ih c h2 with h3 | ⟨p3, hp3, hc3⟩
          · exact Or.inl h3
          · exact Or.inr ⟨p3, by simp [hp3], hc3⟩

/-- A comma-join of non-empty parts is non-empty. -/
theorem joinComma_ne_nil : ∀ parts : List (List Char), parts ≠ [] →
    (∀ p ∈ parts, p ≠ []) → joinComma parts ≠ [] := by
  intro parts
  cases parts with
  | nil =>
    intro h _
    exact absurd rfl h
  | cons p ps =>
    intro _ hall
    cases ps with
    | nil => exact hall p (by simp)
    | cons p2 ps2 =>
      show p ++ ',' :: joinComma (p2 :: ps2) ≠ []
      simp

/-- Every character of a rendering is the sign, the point, or a digit. -/
theorem mem_renderQ (q : ℚ) (c : Char) (hc : c ∈ renderQ q) :
    c = '-' ∨ c = '.' ∨ ∃ d, d < 10 ∧ c = digitChar d := by
  unfold renderQ at hc
  rcases List.mem_append.mp hc with h | h
  · rcases List.mem_append.mp h with h1 | h1
    · left
      by_cases hneg : q.num < 0
      · rw [if_pos hneg] at h1
        simpa using h1
      · rw [if_neg hneg] at h1
        simp at h1
    · obtain ⟨d, hd, rfl⟩ := List.mem_map.mp h1
      exact Or.inr (Or.inr ⟨d, paddedOf_digits q d (List.mem_of_mem_take hd), rfl⟩)
  · rcases List.mem_cons.mp h with rfl | h1
    · exact Or.inr (Or.inl rfl)
    · obtain ⟨d, hd, rfl⟩ := List.mem_map.mp h1
      exact Or.inr (Or.inr ⟨d, paddedOf_digits q d (List.mem_of_mem_drop hd), rfl⟩)

/-- No comma ever occurs inside a rendered number. -/
theorem renderQ_no_comma (q : ℚ) : (',' : Char) ∉ renderQ q := by
  intro hmem
  rcases mem_renderQ q ',' hmem with h | h | ⟨d, hd, h⟩
  · exact absurd h (by decide)
  · exact absurd h (by decide)
  · exact (digitChar_props d hd).2.2.1 h.symm

/-- A rendered number is never the empty string. -/
theorem renderQ_ne_nil (q : ℚ) : renderQ q ≠ [] := by
  unfold renderQ
  simp

/-- No whitespace ever occurs inside a rendered number. -/
theorem renderQ_no_space (q : ℚ) (c : Char) (hc : c ∈ renderQ q) :
    isSpaceChar c = false := by
  rcases mem_renderQ q c hc with rfl | rfl | ⟨d, hd, rfl⟩
  · rfl
  · rfl
  · exact (digitChar_props d hd).2.2.2.2.2.2

/-- Item-wise parsing inverts item-wise rendering. -/
theorem parseItems_renders : ∀ v : List ℚ, (∀ q ∈ v, IsDecimal q) →
    parseItems (v.map renderQ) = some v := by
  intro v
  induction v with
  | nil =>
    intro _
    rfl
  | cons q v ih =>
    intro h
    show parseItems (renderQ q :: v.map renderQ) = some (q :: v)
    simp only [parseItems]
    rw [parseNumQ_renderQ q (h q (by simp)), ih fun x hx => h x (by simp [hx])]
    rfl

/-- C10: the pgvector text codec loses no information — `encode_vector` and
`decode_vector` both map NULL to NULL, and decoding an encoded list of
decimal-rational (finite-float) values returns exactly the original list. -/
theorem codec_roundtrip :
    decode_vector (encode_vector none) = none ∧
    ∀ v : List ℚ, (∀ q ∈ v, IsDecimal q) →
      decode_vector (encode_vector (some v)) = some v := by
  refine ⟨rfl, ?_⟩
  intro v hv
  show decode_vector (.str ('[' :: (joinComma (v.map renderQ) ++ [']']))) =
    some v
  have hnospace : ∀ c ∈ '[' :: (joinComma (v.map renderQ) ++ [']']),
      isSpaceChar c = false := by
    intro c hc
    rcases List.mem_cons.mp hc with rfl | hc2
    · rfl
    · rcases List.mem_append.mp hc2 with h | h
      · rcases mem_joinComma _ c h with rfl | ⟨p, hp, hcp⟩
        · rfl
        · obtain ⟨q0, -, rfl⟩ := List.mem_map.mp hp
          exact renderQ_no_space q0 c hcp
      · rw [List.mem_singleton.mp h]
        rfl
  have heval : literal_eval_vec ('[' :: (joinComma (v.map renderQ) ++ [']'])) =
      some v := by
    simp only [literal_eval_vec]
    rw [if_pos (List.getLast?_concat _), List.dropLast_concat]
    cases v with
    | nil => rfl
    | cons q0 v2 =>
      have hne : joinComma ((q0 :: v2).map renderQ) ≠ [] :=
        joinComma_ne_nil _ (by simp) fun p hp => by
          obtain ⟨q1, -, rfl⟩ := List.mem_map.mp hp
          exact renderQ_ne_nil q1
      rw [if_neg (by rw [List.isEmpty_iff]; exact hne)]
      rw [splitOnComma_joinComma _ (by simp) fun p hp => by
          obtain ⟨q1, -, rfl⟩ := List.mem_map.mp hp
          exact renderQ_no_comma q1]
      exact parseItems_renders _ hv
  simp only [decode_vector]
  rw [stripChars_eq _ hnospace]
  rw [show ('[' :: (joinComma (v.map renderQ) ++ [']'])).isEmpty = false
    from rfl]
  simp only [Bool.false_eq_true, if_false]
  rw [heval]

/-- C10, witness: a concrete mixed-sign vector of decimal rationals decodes
back to itself, and both directions map NULL to NULL. -/
theorem codec_roundtrip_witness :
    decode_vector (encode_vector (some [3 / 2, -(1 / 4), 0, 7])) =
      some [3 / 2, -(1 / 4), 0, 7] :=
  codec_roundtrip.2 [3 / 2, -(1 / 4), 0, 7] (by with_unfolding_all decide)

end MSV2
